import Mathlib

/-!
Shallow embedding of `src/file-organiser.py` (an LLM-driven file organiser).

Python strings are embedded as `List Char` (`Str`), so that Python's
`str.strip`, `str.replace`, `str.startswith` and substring `in` can be
modelled character-exactly.  The external collaborators — the
classification provider (`client.models.generate_content` followed by
`json.loads`), the filesystem, and `shutil.move` — are modelled as
parameters: `loads : Str → Option Json` stands for `json.loads` (`none`
means the call raised), and a `fail : Str → Str → Bool` oracle injects
the environment-dependent failures of `shutil.move`.  Python exceptions
that the source does not catch are modelled with `Except PyErr`.
-/

/-- Python strings, embedded as lists of characters. -/
abbrev Str := List Char

/-- The characters removed by Python's `str.strip()` (ASCII whitespace). -/
def isPyWs (c : Char) : Bool :=
  c = ' ' || c = '\t' || c = '\n' || c = '\r' || c = '\x0B' || c = '\x0C'

/-- Remove leading whitespace (the left half of `str.strip()`). -/
def stripLeft (l : Str) : Str := List.dropWhile isPyWs l

/-- Remove trailing whitespace (the right half of `str.strip()`). -/
def stripRight (l : Str) : Str :=
  List.reverse (List.dropWhile isPyWs (List.reverse l))

/-- Python's `str.strip()`: remove leading and trailing whitespace. -/
def pyStrip (l : Str) : Str := stripRight (stripLeft l)

/-- One step of Python's `str.replace(p, r)` with fuel; each step consumes
at least one character, so fuel equal to the list length suffices.  Models
`str.replace` for a nonempty pattern `p` (the source only replaces the
nonempty literals `"/"`, three backticks, and three backticks + `json`):
leftmost, non-overlapping occurrences of `p` are replaced by `r`. -/
def replaceFuel (p r : Str) : Nat → Str → Str
  | _, [] => []
  | 0, l => l
  | Nat.succ fuel, c :: cs =>
    if p ≠ [] ∧ List.isPrefixOf p (c :: cs) then
      r ++ replaceFuel p r fuel (List.drop (p.length - 1) cs)
    else
      c :: replaceFuel p r fuel cs

/-- Python's `str.replace(p, r)` on embedded strings (nonempty pattern). -/
def replaceList (p r l : Str) : Str := replaceFuel p r l.length l

/-- `IGNORED_FILENAMES` from the source configuration block. -/
def IGNORED_FILENAMES : List Str :=
  [String.toList ".DS_Store", String.toList ".gitignore", String.toList "Thumbs.db"]

/-- `MAX_FOLDERS = 5` from the source configuration block. -/
def MAX_FOLDERS : Nat := 5

/-- `should_ignore`: the name starts with a dot or is in the ignore set. -/
def should_ignore (name : Str) : Bool :=
  (match name with
   | '.' :: _ => true
   | _ => false)
  || decide (name ∈ IGNORED_FILENAMES)

/-- `sanitize_folder`: `name.replace("/", "_").strip()`. -/
def sanitize_folder (name : Str) : Str :=
  pyStrip (replaceList [ '/' ] [ '_' ] name)

/-- The code-fence marker, three backticks. -/
def fenceStr : Str := ['`', '`', '`']

/-- The code-fence marker with a language tag, three backticks + `json`. -/
def fenceJsonStr : Str := ['`', '`', '`', 'j', 's', 'o', 'n']

/-- The response-text preprocessing shared by `batch_classify` and
`classify_single_file`:
`raw = text.strip()`, then if `raw.startswith("` ``` `")`,
`raw = raw.replace("` ```json `", "").replace("` ``` `", "").strip()`. -/
def stripFences (text : Str) : Str :=
  let raw := pyStrip text
  if List.isPrefixOf fenceStr raw then
    pyStrip (replaceList fenceStr [] (replaceList fenceJsonStr [] raw))
  else raw

/-- Values `json.loads` can return.  Numbers are modelled as integers:
only a number's type (which makes the Python `in` operator raise) matters
to the organiser, never its value. -/
inductive Json where
  | null : Json
  | bool : Bool → Json
  | num : Int → Json
  | str : Str → Json
  | arr : List Json → Json
  | obj : List (Str × Json) → Json

/-- Python exceptions that can escape the organiser's own code. -/
inductive PyErr where
  | attributeError : PyErr
  | typeError : PyErr
deriving DecidableEq

/-- Contiguous-substring test (Python's `x in s` on two strings). -/
def isSubstr (x : Str) : Str → Bool
  | [] => decide (x = [])
  | c :: cs => List.isPrefixOf x (c :: cs) || isSubstr x cs

/-- Python's `x in v` for a string `x` and an arbitrary decoded JSON
value `v` (the unchecked `if f.name in filenames:` in `batch_classify`):
substring test on a string, `==`-membership on a list (string equals a
non-string is `False`), key membership on a dict, and a `TypeError` on
`None`, booleans and numbers. -/
def pyIn (x : Str) (v : Json) : Except PyErr Bool :=
  match v with
  | Json.str s => .ok (isSubstr x s)
  | Json.arr xs => .ok (xs.any fun j =>
      match j with
      | Json.str s => decide (s = x)
      | _ => false)
  | Json.obj kvs => .ok (kvs.any fun kv => decide (kv.1 = x))
  | Json.null => .error .typeError
  | Json.bool _ => .error .typeError
  | Json.num _ => .error .typeError

/-- A materialized plan: folder name to member file names, in insertion
order (`folder_map` in the source; `dict[str, list[Path]]`). -/
abbrev FolderMap := List (Str × List Str)

/-- `folder_map.setdefault(clean_folder, []).append(f)`: append `v` to the
entry of `k`, creating the entry at the end if absent (Python dicts keep
insertion order). -/
def setdefaultAppend (m : FolderMap) (k v : Str) : FolderMap :=
  match m with
  | [] => [(k, [v])]
  | (k', vs) :: rest =>
    if k' = k then (k', vs ++ [v]) :: rest
    else (k', vs) :: setdefaultAppend rest k v

/-- The inner loop of `batch_classify`'s materialization:
`for f in files: if f.name in filenames: folder_map.setdefault(...).append(f)`.
`pyIn` may raise (e.g. `filenames` is a number), and the source does not
catch that. -/
def addFiles (clean : Str) (filenames : Json) : List Str → FolderMap → Except PyErr FolderMap
  | [], acc => .ok acc
  | f :: rest, acc =>
    match pyIn f filenames with
    | .error e => .error e
    | .ok true => addFiles clean filenames rest (setdefaultAppend acc clean f)
    | .ok false => addFiles clean filenames rest acc

/-- The outer loop of `batch_classify`'s materialization:
`for folder, filenames in data.items(): clean_folder = sanitize_folder(folder); ...`. -/
def materialize (files : List Str) : List (Str × Json) → FolderMap → Except PyErr FolderMap
  | [], acc => .ok acc
  | (folder, filenames) :: rest, acc =>
    match addFiles (sanitize_folder folder) filenames files acc with
    | .error e => .error e
    | .ok acc' => materialize files rest acc'

/-- `batch_classify(files)`: the provider's raw response text is
fence-stripped, `json.loads` is applied (`loads raw = none` models a parse
exception, caught by the source's `try/except`, which returns `{}`), and
a decoded dict is materialized into a `FolderMap`.  A decoded non-dict
value makes `data.items()` raise an `AttributeError` *outside* the `try`. -/
def batch_classify (loads : Str → Option Json) (files : List Str) (rawText : Str) :
    Except PyErr FolderMap :=
  match loads (stripFences rawText) with
  | none => .ok []
  | some (Json.obj items) => materialize files items []
  | some _ => .error .attributeError

/-- `classify_single_file`: fence-strip, `json.loads`, then
`sanitize_folder(data.get("folder", ""))`, all inside `try/except` that
returns `None` — a missing key defaults to `""`, and a non-string value
makes `sanitize_folder` raise an `AttributeError`, which is caught. -/
def classify_single_file (loads : Str → Option Json) (rawText : Str) : Option Str :=
  match loads (stripFences rawText) with
  | none => none
  | some j =>
    match j with
    | Json.obj kvs =>
      match List.lookup (String.toList "folder") kvs with
      | some (Json.str s) => some (sanitize_folder s)
      | some _ => none
      | none => some (sanitize_folder [])
    | _ => none

/-- The part of the filesystem the organiser touches: the entries directly
under the watched root (`BASE_FOLDER`) split into subdirectory names and
plain-file names, the files already inside subfolders as (folder, file)
pairs, and the plain files of the root's *parent* directory — reachable
because `pathlib` keeps `..` components, so `BASE_FOLDER / ".."` names
the parent (and `BASE_FOLDER / "."` collapses to the root itself). -/
structure FS where
  folders : List Str
  rootFiles : List Str
  contents : List (Str × Str)
  parentFiles : List Str
deriving DecidableEq

/-- `target.mkdir(exist_ok=True)` for `target = BASE_FOLDER / folder`:
create the directory if absent.  For `folder` equal to `..` or `.` the
path names the root's parent or the root itself, an existing directory,
so `exist_ok=True` makes the call a no-op.  (A collision with an equally
named plain file is not modelled.) -/
def mkdirExistOk (fs : FS) (folder : Str) : FS :=
  if folder = String.toList ".." ∨ folder = String.toList "." ∨ folder ∈ fs.folders then fs
  else { fs with folders := fs.folders ++ [folder] }

/-- `shutil.move(str(f), target / f.name)` for `target = BASE_FOLDER / folder`:
`pathlib` keeps `..` components and collapses `.`, so `folder = ".."`
relocates the file into the root's parent directory, `folder = "."`
renames the file onto itself (a successful no-op), and otherwise the move
succeeds when the target directory exists under the root and the source
is still a plain file of the root; `none` models the call raising. -/
def doMove (fs : FS) (fname folder : Str) : Option FS :=
  if fname ∈ fs.rootFiles then
    if folder = String.toList ".." then
      some { fs with
             rootFiles := List.erase fs.rootFiles fname,
             parentFiles := fs.parentFiles ++ [fname] }
    else if folder = String.toList "." then
      some fs
    else if folder ∈ fs.folders then
      some { fs with
             rootFiles := List.erase fs.rootFiles fname,
             contents := fs.contents ++ [(folder, fname)] }
    else none
  else none

/-- One status line of `apply_moves`: which file was attempted into which
folder, and whether the move succeeded (`📁`) or failed (`❌`). -/
structure MoveReport where
  folder : Str
  fname : Str
  ok : Bool
deriving DecidableEq

/-- The inner loop of `apply_moves`: each file's move sits in its own
`try/except`, so a failure is recorded and the loop continues.  `fail` is
an oracle injecting the environment-dependent failures of `shutil.move`
(permissions, collisions, vanished sources). -/
def moveFiles (fail : Str → Str → Bool) (folder : Str) :
    List Str → FS → List MoveReport → FS × List MoveReport
  | [], fs, reps => (fs, reps)
  | f :: rest, fs, reps =>
    if fail f folder then
      moveFiles fail folder rest fs (reps ++ [⟨folder, f, false⟩])
    else
      match doMove fs f folder with
      | some fs' => moveFiles fail folder rest fs' (reps ++ [⟨folder, f, true⟩])
      | none => moveFiles fail folder rest fs (reps ++ [⟨folder, f, false⟩])

/-- `apply_moves(folder_map)`: for each folder of the plan, ensure the
directory exists, then attempt each member file's move. -/
def apply_moves (fail : Str → Str → Bool) :
    FolderMap → FS → List MoveReport → FS × List MoveReport
  | [], fs, reps => (fs, reps)
  | (folder, members) :: rest, fs, reps =>
    let fs1 := mkdirExistOk fs folder
    let p := moveFiles fail folder members fs1 reps
    apply_moves fail rest p.1 p.2

/-- All (folder, file) pairs a plan asks to move, in plan order. -/
def planPairs : FolderMap → List (Str × Str)
  | [] => []
  | (k, vs) :: rest => vs.map (fun f => (k, f)) ++ planPairs rest

/-- The initial-scan candidate list:
`[f for f in BASE_FOLDER.iterdir() if f.is_file() and not should_ignore(f)]`
(`is_file()` keeps exactly the plain files of the root). -/
def files_to_process (fs : FS) : List Str :=
  fs.rootFiles.filter (fun n => !should_ignore n)

/-- The batch phase run at startup: scan, and only when the candidate
list is non-empty call `batch_classify` and `apply_moves`.  The result
carries the plan, the filesystem after the moves and the move reports; an
uncaught exception from `batch_classify` propagates. -/
def batchPhase (loads : Str → Option Json) (fail : Str → Str → Bool)
    (fs : FS) (rawText : Str) : Except PyErr (FolderMap × FS × List MoveReport) :=
  if files_to_process fs = [] then .ok ([], fs, [])
  else
    match batch_classify loads (files_to_process fs) rawText with
    | .error e => .error e
    | .ok m =>
      let p := apply_moves fail m fs []
      .ok (m, p.1, p.2)

/-- A creation event as the watcher hands it to `handle_new_file`: the
entry's name, whether its parent is exactly the watched root, and the
filesystem's answer to `file_path.is_file()`. -/
structure NewFileEvent where
  name : Str
  parentIsRoot : Bool
  isFile : Bool
deriving DecidableEq

/-- The outcome of live reconciliation of one file. -/
inductive LiveOutcome where
  | skipped : LiveOutcome
  | movedTo : Str → LiveOutcome
deriving DecidableEq

/-- `handle_new_file(file_path)`: precondition checks, then
`classify_single_file`; an empty or absent answer, or a target that does
not exist, leaves the file in place.  `target.exists()` holds for a
directory or an equally named plain file of the root, and *also* for the
answers `..` and `.`: `pathlib` keeps `..` and collapses `.`, so
`BASE_FOLDER / ".."` (the root's parent) and `BASE_FOLDER / "."` (the
root) always exist, whatever the root contains.  Live mode contains no
`mkdir`; a failing `shutil.move` is swallowed by `except: pass`. -/
def handle_new_file (loads : Str → Option Json) (fail : Str → Str → Bool)
    (fs : FS) (ev : NewFileEvent) (rawText : Str) : FS × LiveOutcome :=
  if !ev.isFile then (fs, .skipped)
  else if !ev.parentIsRoot then (fs, .skipped)
  else if should_ignore ev.name then (fs, .skipped)
  else
    match classify_single_file loads rawText with
    | none => (fs, .skipped)
    | some folder =>
      if folder = [] then (fs, .skipped)
      else if folder = String.toList ".." ∨ folder = String.toList "."
          ∨ folder ∈ fs.folders ∨ folder ∈ fs.rootFiles then
        if fail ev.name folder then (fs, .skipped)
        else
          match doMove fs ev.name folder with
          | some fs' => (fs', .movedTo folder)
          | none => (fs, .skipped)
      else (fs, .skipped)

/-! ### Lemmas about the embedded string primitives -/

theorem dropWhile_dropWhile (p : Char → Bool) (l : Str) :
    List.dropWhile p (List.dropWhile p l) = List.dropWhile p l := by
  induction l with
  | nil => rfl
  | cons c cs ih =>
    by_cases hc : p c
    · simp [List.dropWhile_cons, hc, ih]
    · simp [List.dropWhile_cons, hc]

theorem stripLeft_stripLeft (l : Str) : stripLeft (stripLeft l) = stripLeft l :=
  dropWhile_dropWhile isPyWs l

theorem stripRight_stripRight (l : Str) : stripRight (stripRight l) = stripRight l := by
  simp [stripRight, dropWhile_dropWhile]

theorem stripRight_isPrefix (l : Str) : ∃ t, stripRight l ++ t = l := by
  obtain ⟨t, ht⟩ := List.dropWhile_suffix (l := List.reverse l) (p := isPyWs)
  refine ⟨List.reverse t, ?_⟩
  have := congrArg List.reverse ht
  simpa [stripRight] using this

theorem dropWhile_fixed_head (p : Char → Bool) (c : Str) (a : Char) (t : Str)
    (hfix : List.dropWhile p c = c) (hc : c = a :: t) : p a = false := by
  subst hc
  rw [List.dropWhile_cons] at hfix
  by_cases ha : p a
  · rw [if_pos ha] at hfix
    have hlen := List.IsSuffix.length_le (List.dropWhile_suffix (l := t) (p := p))
    rw [hfix] at hlen
    simp at hlen
  · simpa using ha

theorem stripLeft_of_stripped (m : Str) (hm : stripLeft m = m) :
    stripLeft (stripRight m) = stripRight m := by
  cases hsr : stripRight m with
  | nil => rfl
  | cons a t =>
    obtain ⟨u, hu⟩ := stripRight_isPrefix m
    rw [hsr] at hu
    have hm' : m = a :: (t ++ u) := by rw [← hu]; simp
    have hpa : isPyWs a = false := dropWhile_fixed_head isPyWs m a (t ++ u) hm hm'
    simp [stripLeft, List.dropWhile_cons, hpa]

theorem pyStrip_idem (l : Str) : pyStrip (pyStrip l) = pyStrip l := by
  unfold pyStrip
  rw [stripLeft_of_stripped (stripLeft l) (stripLeft_stripLeft l), stripRight_stripRight]

theorem stripLeft_cons_ws (c : Char) (l : Str) (hc : isPyWs c = true) :
    stripLeft (c :: l) = stripLeft l := by
  simp [stripLeft, List.dropWhile_cons, hc]

theorem pyStrip_cons_ws (c : Char) (l : Str) (hc : isPyWs c = true) :
    pyStrip (c :: l) = pyStrip l := by
  unfold pyStrip
  rw [stripLeft_cons_ws c l hc]

theorem stripRight_append_ws (c : Char) (l : Str) (hc : isPyWs c = true) :
    stripRight (l ++ [c]) = stripRight l := by
  simp [stripRight, List.dropWhile_cons, hc]

theorem pyStrip_append_ws (c : Char) (l : Str) (hc : isPyWs c = true) :
    pyStrip (l ++ [c]) = pyStrip l := by
  unfold pyStrip stripLeft
  rw [List.dropWhile_append]
  by_cases he : (List.dropWhile isPyWs l).isEmpty
  · rw [if_pos he]
    rw [List.isEmpty_iff] at he
    rw [he]
    simp [List.dropWhile_cons, hc, stripRight]
  · rw [if_neg he]
    exact stripRight_append_ws c (List.dropWhile isPyWs l) hc

theorem pyStrip_no_ws_ends (c d : Char) (m : Str)
    (hc : isPyWs c = false) (hd : isPyWs d = false) :
    pyStrip (c :: (m ++ [d])) = c :: (m ++ [d]) := by
  unfold pyStrip stripLeft stripRight
  rw [List.dropWhile_cons, if_neg (by simp [hc])]
  rw [show List.reverse (c :: (m ++ [d])) = d :: (List.reverse m ++ [c]) by simp]
  rw [List.dropWhile_cons, if_neg (by simp [hd])]
  simp

theorem mem_stripLeft (x : Char) (l : Str) (h : x ∈ stripLeft l) : x ∈ l := by
  obtain ⟨t, ht⟩ := List.dropWhile_suffix (l := l) (p := isPyWs)
  rw [← ht]
  exact List.mem_append_right t h

theorem mem_pyStrip (x : Char) (l : Str) (h : x ∈ pyStrip l) : x ∈ l := by
  apply mem_stripLeft
  unfold pyStrip stripRight at h
  rw [List.mem_reverse] at h
  obtain ⟨t, ht⟩ := List.dropWhile_suffix (l := List.reverse (stripLeft l)) (p := isPyWs)
  rw [← List.mem_reverse, ← ht]
  exact List.mem_append_right t h

theorem replaceFuel_nil (p r : Str) (fuel : Nat) : replaceFuel p r fuel [] = [] := by
  cases fuel <;> rfl

theorem replaceFuel_congr (p r : Str) :
    ∀ f₁ f₂ l, l.length ≤ f₁ → l.length ≤ f₂ →
      replaceFuel p r f₁ l = replaceFuel p r f₂ l := by
  intro f₁
  induction f₁ with
  | zero =>
    intro f₂ l h₁ _
    have : l = [] := List.eq_nil_of_length_eq_zero (Nat.le_zero.mp h₁)
    subst this
    simp [replaceFuel_nil]
  | succ f ih =>
    intro f₂ l h₁ h₂
    cases l with
    | nil => simp [replaceFuel_nil]
    | cons c cs =>
      cases f₂ with
      | zero => simp at h₂
      | succ f' =>
        show replaceFuel p r (f + 1) (c :: cs) = replaceFuel p r (f' + 1) (c :: cs)
        simp only [replaceFuel]
        by_cases hcond : p ≠ [] ∧ List.isPrefixOf p (c :: cs) = true
        · rw [if_pos hcond, if_pos hcond]
          congr 1
          apply ih
          · calc (List.drop (p.length - 1) cs).length ≤ cs.length := by
                  simpa using List.length_drop_le (p.length - 1) cs
              _ ≤ f := by simpa using h₁
          · calc (List.drop (p.length - 1) cs).length ≤ cs.length := by
                  simpa using List.length_drop_le (p.length - 1) cs
              _ ≤ f' := by simpa using h₂
        · rw [if_neg hcond, if_neg hcond]
          congr 1
          apply ih
          · simpa using h₁
          · simpa using h₂

theorem replaceList_nil (p r : Str) : replaceList p r [] = [] := rfl

theorem replaceList_cons_pos (p r : Str) (c : Char) (cs : Str)
    (hp : p ≠ []) (hpre : List.isPrefixOf p (c :: cs) = true) :
    replaceList p r (c :: cs) = r ++ replaceList p r (List.drop (p.length - 1) cs) := by
  show replaceFuel p r (cs.length + 1) (c :: cs) = _
  simp only [replaceFuel, if_pos (And.intro hp hpre)]
  congr 1
  apply replaceFuel_congr
  · simpa using List.length_drop_le (p.length - 1) cs
  · exact Nat.le_refl _

theorem replaceList_cons_neg (p r : Str) (c : Char) (cs : Str)
    (h : ¬(p ≠ [] ∧ List.isPrefixOf p (c :: cs) = true)) :
    replaceList p r (c :: cs) = c :: replaceList p r cs := by
  show replaceFuel p r (cs.length + 1) (c :: cs) = _
  simp only [replaceFuel, if_neg h]
  rfl

theorem isPrefixOf_append_self (p l : Str) : List.isPrefixOf p (p ++ l) = true := by
  induction p with
  | nil => simp [List.isPrefixOf]
  | cons a p' ih => simpa [List.isPrefixOf] using ih

theorem replaceList_head_match (pc : Char) (pt r l : Str) :
    replaceList (pc :: pt) r ((pc :: pt) ++ l) = r ++ replaceList (pc :: pt) r l := by
  rw [show (pc :: pt) ++ l = pc :: (pt ++ l) by rfl]
  rw [replaceList_cons_pos (pc :: pt) r pc (pt ++ l) (by simp)
      (isPrefixOf_append_self (pc :: pt) l)]
  congr 1
  rw [show (pc :: pt).length - 1 = pt.length by simp]
  rw [List.drop_left]

theorem replaceList_skip_front (pc : Char) (pt r : Str) :
    ∀ x l, pc ∉ x → replaceList (pc :: pt) r (x ++ l) = x ++ replaceList (pc :: pt) r l := by
  intro x
  induction x with
  | nil => intro l _; rfl
  | cons a x' ih =>
    intro l h
    have ha : pc ≠ a := fun he => h (by rw [he]; exact List.mem_cons_self a x')
    have hnp : List.isPrefixOf (pc :: pt) (a :: (x' ++ l)) = false := by
      simp [List.isPrefixOf, ha]
    rw [List.cons_append,
        replaceList_cons_neg (pc :: pt) r a (x' ++ l) (by simp [hnp]),
        ih l (fun hm => h (List.mem_cons_of_mem a hm))]
    rfl

theorem replaceList_no_head (pc : Char) (pt r : Str) (l : Str) (h : pc ∉ l) :
    replaceList (pc :: pt) r l = l := by
  have := replaceList_skip_front pc pt r l [] h
  simpa [replaceList_nil] using this

theorem slash_notin_replace (l : Str) : '/' ∉ replaceList [ '/' ] [ '_' ] l := by
  induction l with
  | nil => simp [replaceList_nil]
  | cons c cs ih =>
    by_cases hc : c = '/'
    · subst hc
      rw [replaceList_cons_pos [ '/' ] [ '_' ] '/' cs (by simp) (by simp [List.isPrefixOf])]
      simp only [List.length_cons, List.length_nil, Nat.zero_add, Nat.sub_self, List.drop_zero]
      intro hmem
      rcases List.mem_append.mp hmem with h1 | h2
      · simp at h1
      · exact ih h2
    · rw [replaceList_cons_neg [ '/' ] [ '_' ] c cs (by
        intro hcontra
        have hpre := hcontra.2
        simp [List.isPrefixOf] at hpre
        exact hc hpre.symm)]
      intro hmem
      rcases List.mem_cons.mp hmem with h1 | h2
      · exact hc h1.symm
      · exact ih h2

/-- C5: `sanitize_folder` is total (it is a plain Lean function defined on
all of `Str`, so it returns a string on every input) and idempotent, for
arbitrary inputs including names containing path separators, surrounding
whitespace, or both. -/
theorem sanitize_folder_idem (x : Str) :
    sanitize_folder (sanitize_folder x) = sanitize_folder x := by
  unfold sanitize_folder
  have h1 : '/' ∉ pyStrip (replaceList [ '/' ] [ '_' ] x) := fun hm =>
    slash_notin_replace x (mem_pyStrip '/' _ hm)
  rw [replaceList_no_head '/' [] [ '_' ] _ h1, pyStrip_idem]

theorem isPrefixOf_head_mem (a : Char) (p l : Str)
    (h : List.isPrefixOf (a :: p) l = true) : a ∈ l := by
  cases l with
  | nil => simp [List.isPrefixOf] at h
  | cons c cs =>
    simp [List.isPrefixOf] at h
    rw [h.1]
    exact List.mem_cons_self c cs

theorem stripFences_pos (t : Str) (h : List.isPrefixOf fenceStr (pyStrip t) = true) :
    stripFences t =
      pyStrip (replaceList fenceStr [] (replaceList fenceJsonStr [] (pyStrip t))) := by
  unfold stripFences
  simp [h]

theorem stripFences_neg (t : Str) (h : List.isPrefixOf fenceStr (pyStrip t) = false) :
    stripFences t = pyStrip t := by
  unfold stripFences
  simp [h]

theorem stripFences_no_bt (s : Str) (hs : '`' ∉ s) : stripFences s = pyStrip s := by
  cases h : List.isPrefixOf fenceStr (pyStrip s) with
  | false => exact stripFences_neg s h
  | true =>
    have : ('`' : Char) ∈ pyStrip s :=
      isPrefixOf_head_mem '`' ['`', '`'] (pyStrip s) (by simpa [fenceStr] using h)
    exact absurd (mem_pyStrip '`' s this) hs

theorem bt_notin_core (s : Str) (hs : '`' ∉ s) : ('`' : Char) ∉ '\n' :: (s ++ ['\n']) := by
  intro h
  rcases List.mem_cons.mp h with h1 | h2
  · exact absurd h1 (by decide)
  · rcases List.mem_append.mp h2 with h3 | h4
    · exact hs h3
    · simp at h4

theorem strip_nl_ends (s : Str) : pyStrip ('\n' :: (s ++ ['\n'])) = pyStrip s := by
  rw [pyStrip_cons_ws '\n' _ (by decide), pyStrip_append_ws '\n' s (by decide)]

theorem pyStrip_json_wrap (s : Str) :
    pyStrip (fenceJsonStr ++ '\n' :: (s ++ '\n' :: fenceStr))
      = fenceJsonStr ++ '\n' :: (s ++ '\n' :: fenceStr) := by
  have e : fenceJsonStr ++ '\n' :: (s ++ '\n' :: fenceStr)
      = '`' :: ((['`', '`', 'j', 's', 'o', 'n', '\n'] ++ (s ++ ['\n', '`', '`'])) ++ ['`']) := by
    simp [fenceJsonStr, fenceStr]
  rw [e]
  exact pyStrip_no_ws_ends '`' '`' _ (by decide) (by decide)

theorem pyStrip_plain_wrap (s : Str) :
    pyStrip (fenceStr ++ '\n' :: (s ++ '\n' :: fenceStr))
      = fenceStr ++ '\n' :: (s ++ '\n' :: fenceStr) := by
  have e : fenceStr ++ '\n' :: (s ++ '\n' :: fenceStr)
      = '`' :: ((['`', '`', '\n'] ++ (s ++ ['\n', '`', '`'])) ++ ['`']) := by
    simp [fenceStr]
  rw [e]
  exact pyStrip_no_ws_ends '`' '`' _ (by decide) (by decide)

theorem prefix_json_wrap (s : Str) :
    List.isPrefixOf fenceStr (fenceJsonStr ++ '\n' :: (s ++ '\n' :: fenceStr)) = true := by
  simp [fenceStr, fenceJsonStr, List.isPrefixOf]

theorem prefix_plain_wrap (s : Str) :
    List.isPrefixOf fenceStr (fenceStr ++ '\n' :: (s ++ '\n' :: fenceStr)) = true := by
  simp [fenceStr, List.isPrefixOf]

theorem replace_chain_json_wrap (s : Str) (hs : '`' ∉ s) :
    replaceList fenceStr [] (replaceList fenceJsonStr []
      (fenceJsonStr ++ '\n' :: (s ++ '\n' :: fenceStr))) = '\n' :: (s ++ ['\n']) := by
  have hx := bt_notin_core s hs
  have e1 : fenceJsonStr ++ '\n' :: (s ++ '\n' :: fenceStr)
      = fenceJsonStr ++ (('\n' :: (s ++ ['\n'])) ++ fenceStr) := by
    simp [fenceStr]
  rw [e1]
  have e2 : replaceList fenceJsonStr [] (fenceJsonStr ++ (('\n' :: (s ++ ['\n'])) ++ fenceStr))
      = [] ++ replaceList fenceJsonStr [] (('\n' :: (s ++ ['\n'])) ++ fenceStr) :=
    replaceList_head_match '`' ['`', '`', 'j', 's', 'o', 'n'] [] _
  rw [e2, List.nil_append]
  have e3 : replaceList fenceJsonStr [] (('\n' :: (s ++ ['\n'])) ++ fenceStr)
      = ('\n' :: (s ++ ['\n'])) ++ replaceList fenceJsonStr [] fenceStr :=
    replaceList_skip_front '`' ['`', '`', 'j', 's', 'o', 'n'] [] ('\n' :: (s ++ ['\n'])) fenceStr hx
  rw [e3]
  have e4 : replaceList fenceJsonStr [] fenceStr = fenceStr := by decide
  rw [e4]
  have e5 : replaceList fenceStr [] (('\n' :: (s ++ ['\n'])) ++ fenceStr)
      = ('\n' :: (s ++ ['\n'])) ++ replaceList fenceStr [] fenceStr :=
    replaceList_skip_front '`' ['`', '`'] [] ('\n' :: (s ++ ['\n'])) fenceStr hx
  rw [e5]
  have e6 : replaceList fenceStr [] fenceStr = [] := by decide
  rw [e6, List.append_nil]

theorem replaceJson_skips_plain_wrap (s : Str) (hs : '`' ∉ s) :
    replaceList fenceJsonStr [] (fenceStr ++ '\n' :: (s ++ '\n' :: fenceStr))
      = fenceStr ++ '\n' :: (s ++ '\n' :: fenceStr) := by
  have hx := bt_notin_core s hs
  have e0 : fenceStr ++ '\n' :: (s ++ '\n' :: fenceStr)
      = '`' :: ('`' :: ('`' :: (('\n' :: (s ++ ['\n'])) ++ fenceStr))) := by
    simp [fenceStr]
  rw [e0]
  have n1 : ¬(fenceJsonStr ≠ [] ∧ List.isPrefixOf fenceJsonStr
      ('`' :: ('`' :: ('`' :: (('\n' :: (s ++ ['\n'])) ++ fenceStr)))) = true) := by
    intro hcon
    have := hcon.2
    simp [fenceJsonStr, List.isPrefixOf] at this
  rw [replaceList_cons_neg fenceJsonStr [] '`' _ n1]
  have n2 : ¬(fenceJsonStr ≠ [] ∧ List.isPrefixOf fenceJsonStr
      ('`' :: ('`' :: (('\n' :: (s ++ ['\n'])) ++ fenceStr))) = true) := by
    intro hcon
    have := hcon.2
    simp [fenceJsonStr, List.isPrefixOf] at this
  rw [replaceList_cons_neg fenceJsonStr [] '`' _ n2]
  have n3 : ¬(fenceJsonStr ≠ [] ∧ List.isPrefixOf fenceJsonStr
      ('`' :: (('\n' :: (s ++ ['\n'])) ++ fenceStr)) = true) := by
    intro hcon
    have := hcon.2
    simp [fenceJsonStr, List.isPrefixOf] at this
  rw [replaceList_cons_neg fenceJsonStr [] '`' _ n3]
  have e3 : replaceList fenceJsonStr [] (('\n' :: (s ++ ['\n'])) ++ fenceStr)
      = ('\n' :: (s ++ ['\n'])) ++ replaceList fenceJsonStr [] fenceStr :=
    replaceList_skip_front '`' ['`', '`', 'j', 's', 'o', 'n'] [] ('\n' :: (s ++ ['\n'])) fenceStr hx
  rw [e3]
  have e4 : replaceList fenceJsonStr [] fenceStr = fenceStr := by decide
  rw [e4]

theorem replace_chain_plain_wrap (s : Str) (hs : '`' ∉ s) :
    replaceList fenceStr [] (replaceList fenceJsonStr []
      (fenceStr ++ '\n' :: (s ++ '\n' :: fenceStr))) = '\n' :: (s ++ ['\n']) := by
  have hx := bt_notin_core s hs
  rw [replaceJson_skips_plain_wrap s hs]
  have e1 : fenceStr ++ '\n' :: (s ++ '\n' :: fenceStr)
      = fenceStr ++ (('\n' :: (s ++ ['\n'])) ++ fenceStr) := by
    simp [fenceStr]
  rw [e1]
  have e2 : replaceList fenceStr [] (fenceStr ++ (('\n' :: (s ++ ['\n'])) ++ fenceStr))
      = [] ++ replaceList fenceStr [] (('\n' :: (s ++ ['\n'])) ++ fenceStr) :=
    replaceList_head_match '`' ['`', '`'] [] _
  rw [e2, List.nil_append]
  have e3 : replaceList fenceStr [] (('\n' :: (s ++ ['\n'])) ++ fenceStr)
      = ('\n' :: (s ++ ['\n'])) ++ replaceList fenceStr [] fenceStr :=
    replaceList_skip_front '`' ['`', '`'] [] ('\n' :: (s ++ ['\n'])) fenceStr hx
  rw [e3]
  have e4 : replaceList fenceStr [] fenceStr = [] := by decide
  rw [e4, List.append_nil]

theorem stripFences_json_wrap (s : Str) (hs : '`' ∉ s) :
    stripFences (fenceJsonStr ++ '\n' :: (s ++ '\n' :: fenceStr)) = pyStrip s := by
  have hpre : List.isPrefixOf fenceStr
      (pyStrip (fenceJsonStr ++ '\n' :: (s ++ '\n' :: fenceStr))) = true := by
    rw [pyStrip_json_wrap]
    exact prefix_json_wrap s
  rw [stripFences_pos _ hpre, pyStrip_json_wrap, replace_chain_json_wrap s hs, strip_nl_ends]

theorem stripFences_plain_wrap (s : Str) (hs : '`' ∉ s) :
    stripFences (fenceStr ++ '\n' :: (s ++ '\n' :: fenceStr)) = pyStrip s := by
  have hpre : List.isPrefixOf fenceStr
      (pyStrip (fenceStr ++ '\n' :: (s ++ '\n' :: fenceStr))) = true := by
    rw [pyStrip_plain_wrap]
    exact prefix_plain_wrap s
  rw [stripFences_pos _ hpre, pyStrip_plain_wrap, replace_chain_plain_wrap s hs, strip_nl_ends]

/-! ### Lemmas about plan materialization -/

/-- The folder names of a plan, in insertion order. -/
def keysOf (m : FolderMap) : List Str := m.map Prod.fst

theorem setdefaultAppend_good (files : List Str) (k v : Str) (hv : v ∈ files) :
    ∀ m : FolderMap, (∀ p ∈ m, p.2 ≠ [] ∧ ∀ x ∈ p.2, x ∈ files) →
      ∀ p ∈ setdefaultAppend m k v, p.2 ≠ [] ∧ ∀ x ∈ p.2, x ∈ files := by
  intro m
  induction m with
  | nil =>
    intro _ p hp
    simp [setdefaultAppend] at hp
    subst hp
    constructor
    · simp
    · intro x hx
      simp at hx
      subst hx
      exact hv
  | cons q rest ih =>
    intro hm p hp
    obtain ⟨k', vs⟩ := q
    by_cases hk : k' = k
    · rw [show setdefaultAppend ((k', vs) :: rest) k v = (k', vs ++ [v]) :: rest by
        simp [setdefaultAppend, hk]] at hp
      rcases List.mem_cons.mp hp with h1 | h2
      · subst h1
        constructor
        · simp
        · intro x hx
          rcases List.mem_append.mp hx with hx1 | hx2
          · exact (hm (k', vs) (List.mem_cons_self _ _)).2 x hx1
          · simp at hx2
            subst hx2
            exact hv
      · exact hm p (List.mem_cons_of_mem _ h2)
    · rw [show setdefaultAppend ((k', vs) :: rest) k v
          = (k', vs) :: setdefaultAppend rest k v by simp [setdefaultAppend, hk]] at hp
      rcases List.mem_cons.mp hp with h1 | h2
      · subst h1
        exact hm (k', vs) (List.mem_cons_self _ _)
      · exact ih (fun q hq => hm q (List.mem_cons_of_mem _ hq)) p h2

theorem addFiles_good (clean : Str) (filenames : Json) (files : List Str) :
    ∀ fl acc acc', addFiles clean filenames fl acc = .ok acc' →
      (∀ x ∈ fl, x ∈ files) →
      (∀ p ∈ acc, p.2 ≠ [] ∧ ∀ x ∈ p.2, x ∈ files) →
      ∀ p ∈ acc', p.2 ≠ [] ∧ ∀ x ∈ p.2, x ∈ files := by
  intro fl
  induction fl with
  | nil =>
    intro acc acc' h _ hacc
    simp [addFiles] at h
    subst h
    exact hacc
  | cons f rest ih =>
    intro acc acc' h hfl hacc
    cases hin : pyIn f filenames with
    | error e => simp [addFiles, hin] at h
    | ok b =>
      cases b with
      | true =>
        simp [addFiles, hin] at h
        exact ih _ _ h (fun x hx => hfl x (List.mem_cons_of_mem _ hx))
          (setdefaultAppend_good files clean f (hfl f (List.mem_cons_self _ _)) acc hacc)
      | false =>
        simp [addFiles, hin] at h
        exact ih _ _ h (fun x hx => hfl x (List.mem_cons_of_mem _ hx)) hacc

theorem materialize_good (files : List Str) :
    ∀ items acc acc', materialize files items acc = .ok acc' →
      (∀ p ∈ acc, p.2 ≠ [] ∧ ∀ x ∈ p.2, x ∈ files) →
      ∀ p ∈ acc', p.2 ≠ [] ∧ ∀ x ∈ p.2, x ∈ files := by
  intro items
  induction items with
  | nil =>
    intro acc acc' h hacc
    simp [materialize] at h
    subst h
    exact hacc
  | cons it rest ih =>
    intro acc acc' h hacc
    obtain ⟨folder, filenames⟩ := it
    cases hadd : addFiles (sanitize_folder folder) filenames files acc with
    | error e => simp [materialize, hadd] at h
    | ok acc1 =>
      simp [materialize, hadd] at h
      exact ih _ _ h
        (addFiles_good (sanitize_folder folder) filenames files files acc acc1 hadd
          (fun x hx => hx) hacc)

theorem batch_classify_good (loads : Str → Option Json) (files : List Str) (rawText : Str)
    (m : FolderMap) (h : batch_classify loads files rawText = .ok m) :
    ∀ p ∈ m, p.2 ≠ [] ∧ ∀ x ∈ p.2, x ∈ files := by
  unfold batch_classify at h
  cases hl : loads (stripFences rawText) with
  | none =>
    rw [hl] at h
    simp at h
    subst h
    intro p hp
    simp at hp
  | some j =>
    rw [hl] at h
    cases j with
    | obj items =>
      exact materialize_good files items [] m h (by intro p hp; simp at hp)
    | null => simp at h
    | bool b => simp at h
    | num n => simp at h
    | str s => simp at h
    | arr xs => simp at h

theorem setdefaultAppend_keys (k v : Str) :
    ∀ m : FolderMap, keysOf (setdefaultAppend m k v)
      = if k ∈ keysOf m then keysOf m else keysOf m ++ [k] := by
  intro m
  induction m with
  | nil => simp [setdefaultAppend, keysOf]
  | cons q rest ih =>
    obtain ⟨k', vs⟩ := q
    by_cases hk : k' = k
    · subst hk
      rw [show setdefaultAppend ((k', vs) :: rest) k' v = (k', vs ++ [v]) :: rest by
        simp [setdefaultAppend]]
      simp [keysOf]
    · rw [show setdefaultAppend ((k', vs) :: rest) k v
          = (k', vs) :: setdefaultAppend rest k v by simp [setdefaultAppend, hk]]
      by_cases hmem : k ∈ keysOf rest
      · have hcons : k ∈ keysOf ((k', vs) :: rest) := by simp [keysOf] at hmem ⊢; right; exact hmem
        rw [if_pos hcons]
        show k' :: keysOf (setdefaultAppend rest k v) = _
        rw [ih, if_pos hmem]
        rfl
      · have hcons : k ∉ keysOf ((k', vs) :: rest) := by
          simp [keysOf] at hmem ⊢
          exact ⟨fun he => hk he.symm, hmem⟩
        rw [if_neg hcons]
        show k' :: keysOf (setdefaultAppend rest k v) = _
        rw [ih, if_neg hmem]
        rfl

theorem setdefaultAppend_keys_sub (k v : Str) (m : FolderMap) (x : Str)
    (hx : x ∈ keysOf (setdefaultAppend m k v)) : x ∈ keysOf m ∨ x = k := by
  rw [setdefaultAppend_keys] at hx
  by_cases hm : k ∈ keysOf m
  · rw [if_pos hm] at hx
    exact Or.inl hx
  · rw [if_neg hm] at hx
    rcases List.mem_append.mp hx with h1 | h2
    · exact Or.inl h1
    · simp at h2
      exact Or.inr h2

theorem setdefaultAppend_keys_nodup (k v : Str) (m : FolderMap)
    (hn : (keysOf m).Nodup) : (keysOf (setdefaultAppend m k v)).Nodup := by
  rw [setdefaultAppend_keys]
  by_cases hm : k ∈ keysOf m
  · rw [if_pos hm]
    exact hn
  · rw [if_neg hm]
    simp [List.nodup_append, hn, hm]

theorem addFiles_keys_sub (clean : Str) (filenames : Json) (files : List Str) :
    ∀ fl acc acc', addFiles clean filenames fl acc = .ok acc' →
      ∀ x ∈ keysOf acc', x ∈ keysOf acc ∨ x = clean := by
  intro fl
  induction fl with
  | nil =>
    intro acc acc' h x hx
    simp [addFiles] at h
    subst h
    exact Or.inl hx
  | cons f rest ih =>
    intro acc acc' h x hx
    cases hin : pyIn f filenames with
    | error e => simp [addFiles, hin] at h
    | ok b =>
      cases b with
      | true =>
        simp [addFiles, hin] at h
        rcases ih _ _ h x hx with h1 | h2
        · exact setdefaultAppend_keys_sub clean f acc x h1
        · exact Or.inr h2
      | false =>
        simp [addFiles, hin] at h
        exact ih _ _ h x hx

theorem addFiles_keys_nodup (clean : Str) (filenames : Json) :
    ∀ fl acc acc', addFiles clean filenames fl acc = .ok acc' →
      (keysOf acc).Nodup → (keysOf acc').Nodup := by
  intro fl
  induction fl with
  | nil =>
    intro acc acc' h hn
    simp [addFiles] at h
    subst h
    exact hn
  | cons f rest ih =>
    intro acc acc' h hn
    cases hin : pyIn f filenames with
    | error e => simp [addFiles, hin] at h
    | ok b =>
      cases b with
      | true =>
        simp [addFiles, hin] at h
        exact ih _ _ h (setdefaultAppend_keys_nodup clean f acc hn)
      | false =>
        simp [addFiles, hin] at h
        exact ih _ _ h hn

theorem materialize_keys_sub (files : List Str) :
    ∀ items acc acc', materialize files items acc = .ok acc' →
      ∀ x ∈ keysOf acc', x ∈ keysOf acc ∨ ∃ it ∈ items, x = sanitize_folder it.1 := by
  intro items
  induction items with
  | nil =>
    intro acc acc' h x hx
    simp [materialize] at h
    subst h
    exact Or.inl hx
  | cons it rest ih =>
    intro acc acc' h x hx
    obtain ⟨folder, filenames⟩ := it
    cases hadd : addFiles (sanitize_folder folder) filenames files acc with
    | error e => simp [materialize, hadd] at h
    | ok acc1 =>
      simp [materialize, hadd] at h
      rcases ih _ _ h x hx with h1 | ⟨it', hit', he⟩
      · rcases addFiles_keys_sub (sanitize_folder folder) filenames files files acc acc1 hadd x h1
          with h2 | h3
        · exact Or.inl h2
        · exact Or.inr ⟨(folder, filenames), List.mem_cons_self _ _, h3⟩
      · exact Or.inr ⟨it', List.mem_cons_of_mem _ hit', he⟩

theorem materialize_keys_nodup (files : List Str) :
    ∀ items acc acc', materialize files items acc = .ok acc' →
      (keysOf acc).Nodup → (keysOf acc').Nodup := by
  intro items
  induction items with
  | nil =>
    intro acc acc' h hn
    simp [materialize] at h
    subst h
    exact hn
  | cons it rest ih =>
    intro acc acc' h hn
    obtain ⟨folder, filenames⟩ := it
    cases hadd : addFiles (sanitize_folder folder) filenames files acc with
    | error e => simp [materialize, hadd] at h
    | ok acc1 =>
      simp [materialize, hadd] at h
      exact ih _ _ h (addFiles_keys_nodup (sanitize_folder folder) filenames files acc acc1 hadd hn)

theorem nodup_sub_map_length (K ks : List Str) (f : Str → Str)
    (hn : K.Nodup) (hsub : ∀ x ∈ K, ∃ k ∈ ks, f k = x) :
    K.length ≤ ks.dedup.length := by
  have h1 : K.toFinset.card = K.length := List.toFinset_card_of_nodup hn
  have h2 : K.toFinset ⊆ (ks.map f).toFinset := by
    intro x hx
    rw [List.mem_toFinset] at hx ⊢
    obtain ⟨k, hk, hfk⟩ := hsub x hx
    exact List.mem_map.mpr ⟨k, hk, hfk⟩
  have h3 : (ks.map f).toFinset = Finset.image f ks.toFinset := by
    ext x
    simp
  have h4 : K.toFinset.card ≤ (Finset.image f ks.toFinset).card := by
    rw [← h3]
    exact Finset.card_le_card h2
  have h5 : (Finset.image f ks.toFinset).card ≤ ks.toFinset.card := Finset.card_image_le
  have h6 : ks.toFinset.card = ks.dedup.length := List.card_toFinset ks
  omega

/-! ### Lemmas about the move executor and live mode -/

theorem doMove_some_mem (fs : FS) (fname folder : Str) (fs' : FS)
    (h : doMove fs fname folder = some fs') :
    fname ∈ fs.rootFiles ∧
    (folder = String.toList ".." ∨ folder = String.toList "." ∨ folder ∈ fs.folders) := by
  unfold doMove at h
  by_cases hsrc : fname ∈ fs.rootFiles
  · rw [if_pos hsrc] at h
    refine ⟨hsrc, ?_⟩
    by_cases h1 : folder = String.toList ".."
    · exact Or.inl h1
    · rw [if_neg h1] at h
      by_cases h2 : folder = String.toList "."
      · exact Or.inr (Or.inl h2)
      · rw [if_neg h2] at h
        by_cases h3 : folder ∈ fs.folders
        · exact Or.inr (Or.inr h3)
        · rw [if_neg h3] at h
          cases h
  · rw [if_neg hsrc] at h
    cases h

theorem doMove_folders (fs : FS) (fname folder : Str) (fs' : FS)
    (h : doMove fs fname folder = some fs') : fs'.folders = fs.folders := by
  unfold doMove at h
  by_cases hsrc : fname ∈ fs.rootFiles
  · rw [if_pos hsrc] at h
    by_cases h1 : folder = String.toList ".."
    · rw [if_pos h1] at h
      cases h
      rfl
    · rw [if_neg h1] at h
      by_cases h2 : folder = String.toList "."
      · rw [if_pos h2] at h
        cases h
        rfl
      · rw [if_neg h2] at h
        by_cases h3 : folder ∈ fs.folders
        · rw [if_pos h3] at h
          cases h
          rfl
        · rw [if_neg h3] at h
          cases h
  · rw [if_neg hsrc] at h
    cases h

theorem moveFiles_reports (fail : Str → Str → Bool) (folder : Str) :
    ∀ fl fs reps, ((moveFiles fail folder fl fs reps).2).map (fun r => (r.folder, r.fname))
      = reps.map (fun r => (r.folder, r.fname)) ++ fl.map (fun f => (folder, f)) := by
  intro fl
  induction fl with
  | nil => intro fs reps; simp [moveFiles]
  | cons f rest ih =>
    intro fs reps
    by_cases hf : fail f folder
    · rw [show moveFiles fail folder (f :: rest) fs reps
          = moveFiles fail folder rest fs (reps ++ [⟨folder, f, false⟩]) by
        simp [moveFiles, hf]]
      rw [ih]
      simp
    · cases hm : doMove fs f folder with
      | some fs' =>
        rw [show moveFiles fail folder (f :: rest) fs reps
            = moveFiles fail folder rest fs' (reps ++ [⟨folder, f, true⟩]) by
          simp [moveFiles, hf, hm]]
        rw [ih]
        simp
      | none =>
        rw [show moveFiles fail folder (f :: rest) fs reps
            = moveFiles fail folder rest fs (reps ++ [⟨folder, f, false⟩]) by
          simp [moveFiles, hf, hm]]
        rw [ih]
        simp

theorem moveFiles_folders (fail : Str → Str → Bool) (folder : Str) :
    ∀ fl fs reps, ((moveFiles fail folder fl fs reps).1).folders = fs.folders := by
  intro fl
  induction fl with
  | nil => intro fs reps; simp [moveFiles]
  | cons f rest ih =>
    intro fs reps
    by_cases hf : fail f folder
    · rw [show moveFiles fail folder (f :: rest) fs reps
          = moveFiles fail folder rest fs (reps ++ [⟨folder, f, false⟩]) by
        simp [moveFiles, hf]]
      exact ih fs _
    · cases hm : doMove fs f folder with
      | some fs' =>
        rw [show moveFiles fail folder (f :: rest) fs reps
            = moveFiles fail folder rest fs' (reps ++ [⟨folder, f, true⟩]) by
          simp [moveFiles, hf, hm]]
        rw [ih fs' _]
        exact doMove_folders fs f folder fs' hm
      | none =>
        rw [show moveFiles fail folder (f :: rest) fs reps
            = moveFiles fail folder rest fs (reps ++ [⟨folder, f, false⟩]) by
          simp [moveFiles, hf, hm]]
        exact ih fs _

theorem apply_moves_reports (fail : Str → Str → Bool) :
    ∀ plan fs reps, ((apply_moves fail plan fs reps).2).map (fun r => (r.folder, r.fname))
      = reps.map (fun r => (r.folder, r.fname)) ++ planPairs plan := by
  intro plan
  induction plan with
  | nil => intro fs reps; simp [apply_moves, planPairs]
  | cons q rest ih =>
    intro fs reps
    obtain ⟨folder, members⟩ := q
    rw [show apply_moves fail ((folder, members) :: rest) fs reps
        = apply_moves fail rest
            (moveFiles fail folder members (mkdirExistOk fs folder) reps).1
            (moveFiles fail folder members (mkdirExistOk fs folder) reps).2 by
      simp [apply_moves]]
    rw [ih, moveFiles_reports]
    simp [planPairs]

theorem mkdirExistOk_mem (fs : FS) (folder x : Str)
    (hx : x ∈ (mkdirExistOk fs folder).folders) : x ∈ fs.folders ∨ x = folder := by
  unfold mkdirExistOk at hx
  by_cases hc : folder = String.toList ".." ∨ folder = String.toList "." ∨ folder ∈ fs.folders
  · rw [if_pos hc] at hx
    exact Or.inl hx
  · rw [if_neg hc] at hx
    simp at hx
    rcases hx with h1 | h2
    · exact Or.inl h1
    · exact Or.inr h2

theorem apply_moves_folders (fail : Str → Str → Bool) :
    ∀ plan fs reps x, x ∈ ((apply_moves fail plan fs reps).1).folders →
      x ∈ fs.folders ∨ x ∈ keysOf plan := by
  intro plan
  induction plan with
  | nil =>
    intro fs reps x hx
    simp [apply_moves] at hx
    exact Or.inl hx
  | cons q rest ih =>
    intro fs reps x hx
    obtain ⟨folder, members⟩ := q
    rw [show apply_moves fail ((folder, members) :: rest) fs reps
        = apply_moves fail rest
            (moveFiles fail folder members (mkdirExistOk fs folder) reps).1
            (moveFiles fail folder members (mkdirExistOk fs folder) reps).2 by
      simp [apply_moves]] at hx
    rcases ih _ _ x hx with h1 | h2
    · rw [moveFiles_folders] at h1
      rcases mkdirExistOk_mem fs folder x h1 with h3 | h4
      · exact Or.inl h3
      · exact Or.inr (by simp [keysOf, h4])
    · exact Or.inr (by simp [keysOf] at h2 ⊢; right; exact h2)

theorem handle_new_file_ignored (loads : Str → Option Json) (fail : Str → Str → Bool)
    (fs : FS) (ev : NewFileEvent) (rawText : Str) (h : should_ignore ev.name = true) :
    handle_new_file loads fail fs ev rawText = (fs, LiveOutcome.skipped) := by
  unfold handle_new_file
  cases hf : ev.isFile with
  | false => simp [hf]
  | true =>
    cases hp : ev.parentIsRoot with
    | false => simp [hf, hp]
    | true => simp [hf, hp, h]

theorem handle_new_file_noanswer (loads : Str → Option Json) (fail : Str → Str → Bool)
    (fs : FS) (ev : NewFileEvent) (rawText : Str)
    (h : classify_single_file loads rawText = none) :
    handle_new_file loads fail fs ev rawText = (fs, LiveOutcome.skipped) := by
  unfold handle_new_file
  cases hf : ev.isFile with
  | false => simp [hf]
  | true =>
    cases hp : ev.parentIsRoot with
    | false => simp [hf, hp]
    | true =>
      cases hi : should_ignore ev.name with
      | true => simp [hf, hp, hi]
      | false => simp [hf, hp, hi, h]

theorem handle_new_file_cases (loads : Str → Option Json) (fail : Str → Str → Bool)
    (fs : FS) (ev : NewFileEvent) (rawText : Str) :
    handle_new_file loads fail fs ev rawText = (fs, LiveOutcome.skipped) ∨
    ∃ folder fs', classify_single_file loads rawText = some folder ∧
      doMove fs ev.name folder = some fs' ∧
      handle_new_file loads fail fs ev rawText = (fs', LiveOutcome.movedTo folder) := by
  unfold handle_new_file
  cases hf : ev.isFile with
  | false => exact Or.inl (by simp [hf])
  | true =>
  cases hp : ev.parentIsRoot with
  | false => exact Or.inl (by simp [hf, hp])
  | true =>
  cases hi : should_ignore ev.name with
  | true => exact Or.inl (by simp [hf, hp, hi])
  | false =>
  cases hcl : classify_single_file loads rawText with
  | none => exact Or.inl (by simp [hf, hp, hi, hcl])
  | some folder =>
  by_cases hemp : folder = []
  · exact Or.inl (by simp [hf, hp, hi, hcl, hemp])
  by_cases hex : folder = String.toList ".." ∨ folder = String.toList "."
      ∨ folder ∈ fs.folders ∨ folder ∈ fs.rootFiles
  · have hex' : folder = ['.', '.'] ∨ folder = ['.']
        ∨ folder ∈ fs.folders ∨ folder ∈ fs.rootFiles := by
      simpa using hex
    by_cases hfl : fail ev.name folder = true
    · exact Or.inl (by simp [hf, hp, hi, hcl, hemp, hex', hfl])
    · cases hdm : doMove fs ev.name folder with
      | none => exact Or.inl (by simp [hf, hp, hi, hcl, hemp, hex', hfl, hdm])
      | some fs' =>
        refine Or.inr ⟨folder, fs', rfl, hdm, ?_⟩
        simp [hf, hp, hi, hemp, hex', hfl, hdm]
  · have hex' : ¬(folder = ['.', '.'] ∨ folder = ['.']
        ∨ folder ∈ fs.folders ∨ folder ∈ fs.rootFiles) := by
      simpa using hex
    exact Or.inl (by simp [hf, hp, hi, hcl, hemp, hex'])

theorem planPairs_mem (m : FolderMap) (pr : Str × Str) (h : pr ∈ planPairs m) :
    ∃ p ∈ m, pr.1 = p.1 ∧ pr.2 ∈ p.2 := by
  induction m with
  | nil => simp [planPairs] at h
  | cons q rest ih =>
    obtain ⟨k, vs⟩ := q
    rw [show planPairs ((k, vs) :: rest) = vs.map (fun f => (k, f)) ++ planPairs rest by
      simp [planPairs]] at h
    rcases List.mem_append.mp h with h1 | h2
    · obtain ⟨f, hf, he⟩ := List.mem_map.mp h1
      exact ⟨(k, vs), List.mem_cons_self _ _, by rw [← he], by rw [← he]; exact hf⟩
    · obtain ⟨p, hp, he⟩ := ih h2
      exact ⟨p, List.mem_cons_of_mem _ hp, he⟩

/-! ### Claim theorems -/

/-- C1 counterexample: with zero folders under the watched root and a
provider answer of `..`, the file is not skipped and not left in place.
`sanitize_folder("..") = ".."` is truthy, `pathlib` keeps the `..`
component, so `BASE_FOLDER/..` (the root's parent) exists whatever the
root contains, and `shutil.move` relocates the file out of the watched
root into the parent directory. -/
theorem live_mode_dotdot_counterexample :
    handle_new_file
        (fun _ => some (Json.obj [(String.toList "folder", Json.str (String.toList ".."))]))
        (fun _ _ => false)
        ⟨[], [String.toList "report.pdf"], [], []⟩
        ⟨String.toList "report.pdf", true, true⟩ []
      = (⟨[], [], [], [String.toList "report.pdf"]⟩,
          LiveOutcome.movedTo (String.toList "..")) ∧
    handle_new_file
        (fun _ => some (Json.obj [(String.toList "folder", Json.str (String.toList ".."))]))
        (fun _ _ => false)
        ⟨[], [String.toList "report.pdf"], [], []⟩
        ⟨String.toList "report.pdf", true, true⟩ []
      ≠ (⟨[], [String.toList "report.pdf"], [], []⟩, LiveOutcome.skipped) := by
  constructor
  · rfl
  · decide

/-- C1 (amended): live mode never creates a folder (`handle_new_file`
contains no `mkdir`, so the folder set is unchanged by every call), every
skip leaves the filesystem untouched, and a move's target existed on the
filesystem at decision time — but filesystem existence is wider than the
root's children: the path-aliasing answers `..` (the root's parent) and
`.` (the root itself) always exist.  Whenever the provider's sanitized
answer is neither `..` nor `.`, the original guarantees hold: with zero
folders the outcome is `skipped`, and a move targets only a folder
already existing directly under the root. -/
theorem live_mode_never_creates_folder (loads : Str → Option Json) (fail : Str → Str → Bool)
    (fs : FS) (ev : NewFileEvent) (rawText : Str) :
    ((handle_new_file loads fail fs ev rawText).1).folders = fs.folders ∧
    ((handle_new_file loads fail fs ev rawText).2 = LiveOutcome.skipped →
      (handle_new_file loads fail fs ev rawText).1 = fs) ∧
    (∀ g, (handle_new_file loads fail fs ev rawText).2 = LiveOutcome.movedTo g →
      g = String.toList ".." ∨ g = String.toList "." ∨ g ∈ fs.folders) ∧
    ((∀ r, classify_single_file loads rawText = some r →
        r ≠ String.toList ".." ∧ r ≠ String.toList ".") →
      (fs.folders = [] → handle_new_file loads fail fs ev rawText = (fs, LiveOutcome.skipped)) ∧
      (∀ g, (handle_new_file loads fail fs ev rawText).2 = LiveOutcome.movedTo g →
        g ∈ fs.folders)) := by
  rcases handle_new_file_cases loads fail fs ev rawText with
    hcase | ⟨folder, fs', hcl, hdm, hcase⟩
  · rw [hcase]
    refine ⟨rfl, fun _ => rfl, fun g hg => LiveOutcome.noConfusion hg, ?_⟩
    exact fun _ => ⟨fun _ => rfl, fun g hg => LiveOutcome.noConfusion hg⟩
  · rw [hcase]
    have hmem := doMove_some_mem fs ev.name folder fs' hdm
    refine ⟨doMove_folders fs ev.name folder fs' hdm, ?_, ?_, ?_⟩
    · intro hg
      exact LiveOutcome.noConfusion hg
    · intro g hg
      cases hg
      exact hmem.2
    · intro hguard
      obtain ⟨hne1, hne2⟩ := hguard folder hcl
      have hfold : folder ∈ fs.folders := by
        rcases hmem.2 with h1 | h2 | h3
        · exact absurd h1 hne1
        · exact absurd h2 hne2
        · exact h3
      constructor
      · intro h0
        rw [h0] at hfold
        exact absurd hfold (List.not_mem_nil folder)
      · intro g hg
        cases hg
        exact hfold

/-- Witness for the amended C1: a concrete run with zero folders and a
provider that cannot answer a path-aliasing component is skipped and
leaves the state unchanged. -/
theorem live_mode_never_creates_folder_witness :
    handle_new_file (fun _ => none) (fun _ _ => false)
        ⟨[], [String.toList "a.txt"], [], []⟩ ⟨String.toList "a.txt", true, true⟩ []
      = (⟨[], [String.toList "a.txt"], [], []⟩, LiveOutcome.skipped) :=
  ((live_mode_never_creates_folder (fun _ => none) (fun _ _ => false)
      ⟨[], [String.toList "a.txt"], [], []⟩ ⟨String.toList "a.txt", true, true⟩ []).2.2.2
    (fun _ hr => Option.noConfusion hr)).1 rfl

/-- C2 counterexample: a provider response that is well-formed JSON but not
of the expected shape (here the JSON array `[]`) makes `batch_classify`
raise an `AttributeError` out of the call (`data.items()` sits outside the
`try`), instead of returning an empty plan without raising. -/
theorem malformed_response_counterexample :
    batch_classify (fun _ => some (Json.arr [])) [String.toList "a.txt"] (String.toList "[]")
      = .error PyErr.attributeError := rfl

/-- C2 (amended): for every provider response whose text fails JSON parsing
(`json.loads` raises), batch classification returns an empty plan, live
classification returns `None`, no exception escapes either call and no
filesystem mutation occurs.  (A response that parses to a non-object is
different: live still returns `None`, but batch classification raises.) -/
theorem parse_failure_degrades_to_no_action (loads : Str → Option Json) (rawText : Str)
    (h : loads (stripFences rawText) = none) :
    (∀ files, batch_classify loads files rawText = .ok []) ∧
    classify_single_file loads rawText = none ∧
    (∀ fail fs, batchPhase loads fail fs rawText = .ok ([], fs, [])) ∧
    (∀ fail fs ev, handle_new_file loads fail fs ev rawText = (fs, LiveOutcome.skipped)) := by
  have hb : ∀ files, batch_classify loads files rawText = .ok [] := by
    intro files
    unfold batch_classify
    rw [h]
  have hc : classify_single_file loads rawText = none := by
    unfold classify_single_file
    rw [h]
  refine ⟨hb, hc, ?_, ?_⟩
  · intro fail fs
    unfold batchPhase
    by_cases hemp : files_to_process fs = []
    · rw [if_pos hemp]
    · rw [if_neg hemp, hb]
      rfl
  · intro fail fs ev
    exact handle_new_file_noanswer loads fail fs ev rawText hc

/-- Witness for the amended C2: a concrete unparseable response yields an
empty batch plan and an absent live answer. -/
theorem parse_failure_degrades_to_no_action_witness :
    batch_classify (fun _ => none) [String.toList "a.txt"] (String.toList "not json") = .ok [] ∧
    classify_single_file (fun _ => none) (String.toList "not json") = none :=
  ⟨(parse_failure_degrades_to_no_action (fun _ => none) (String.toList "not json") rfl).1
      [String.toList "a.txt"],
   (parse_failure_degrades_to_no_action (fun _ => none) (String.toList "not json") rfl).2.1⟩

/-- C3: every file name appearing in a member list of the materialized plan
comes from the original candidate set — names the provider hallucinated
are dropped. -/
theorem hallucinated_names_dropped (loads : Str → Option Json) (files : List Str)
    (rawText : Str) (m : FolderMap) (h : batch_classify loads files rawText = .ok m) :
    ∀ p ∈ m, ∀ x ∈ p.2, x ∈ files := by
  intro p hp x hx
  exact (batch_classify_good loads files rawText m h p hp).2 x hx

/-- Witness for C3: a provider answer naming both a real candidate and a
hallucinated `ghost.txt` materializes to a plan whose only member is the
real candidate. -/
theorem hallucinated_names_dropped_witness :
    String.toList "a.txt" ∈ [String.toList "a.txt"] :=
  hallucinated_names_dropped
    (fun _ => some (Json.obj [(String.toList "Docs",
      Json.arr [Json.str (String.toList "a.txt"), Json.str (String.toList "ghost.txt")])]))
    [String.toList "a.txt"] [] [(String.toList "Docs", [String.toList "a.txt"])] rfl
    (String.toList "Docs", [String.toList "a.txt"]) (List.mem_cons_self _ _)
    (String.toList "a.txt") (List.mem_cons_self _ _)

/-- C4: when the decoded provider result honors the ceiling (at most
`MAX_FOLDERS` distinct folder keys), the materialized plan also has at
most `MAX_FOLDERS` distinct keys — sanitization can only merge keys,
never multiply them. -/
theorem plan_keys_within_ceiling (loads : Str → Option Json) (files : List Str)
    (rawText : Str) (items : List (Str × Json)) (m : FolderMap)
    (hl : loads (stripFences rawText) = some (Json.obj items))
    (h : batch_classify loads files rawText = .ok m)
    (hceil : (items.map Prod.fst).dedup.length ≤ MAX_FOLDERS) :
    (keysOf m).dedup.length ≤ MAX_FOLDERS := by
  have hmat : materialize files items [] = .ok m := by
    unfold batch_classify at h
    rw [hl] at h
    exact h
  have hnd : (keysOf m).Nodup :=
    materialize_keys_nodup files items [] m hmat (by simp [keysOf])
  have hsub : ∀ x ∈ keysOf m, ∃ k ∈ items.map Prod.fst, sanitize_folder k = x := by
    intro x hx
    rcases materialize_keys_sub files items [] m hmat x hx with h1 | ⟨it, hit, he⟩
    · simp [keysOf] at h1
    · exact ⟨it.1, List.mem_map.mpr ⟨it, hit, rfl⟩, he.symm⟩
  rw [List.Nodup.dedup hnd]
  calc (keysOf m).length ≤ (items.map Prod.fst).dedup.length :=
        nodup_sub_map_length (keysOf m) (items.map Prod.fst) sanitize_folder hnd hsub
    _ ≤ MAX_FOLDERS := hceil

/-- Witness for C4: a ceiling-honoring decoded result with two groups
materializes to a plan with at most `MAX_FOLDERS` distinct keys. -/
theorem plan_keys_within_ceiling_witness :
    (keysOf [(String.toList "Receipts", [String.toList "invoice1.pdf"]),
             (String.toList "Music", [String.toList "song.mp3"])]).dedup.length
      ≤ MAX_FOLDERS :=
  plan_keys_within_ceiling
    (fun _ => some (Json.obj
      [(String.toList "Receipts", Json.arr [Json.str (String.toList "invoice1.pdf")]),
       (String.toList "Music", Json.arr [Json.str (String.toList "song.mp3")])]))
    [String.toList "invoice1.pdf", String.toList "song.mp3"] []
    [(String.toList "Receipts", Json.arr [Json.str (String.toList "invoice1.pdf")]),
     (String.toList "Music", Json.arr [Json.str (String.toList "song.mp3")])]
    [(String.toList "Receipts", [String.toList "invoice1.pdf"]),
     (String.toList "Music", [String.toList "song.mp3"])]
    rfl rfl (by decide)

/-- C6: a file whose name starts with a dot or is in the fixed ignore-set
is excluded from the batch candidate list, is handled by live mode as an
unconditional skip that consults no provider (the result is the same for
every provider behaviour) and touches nothing, appears in no member list
of any batch plan over the candidate list, and is never the subject of a
move attempted by `apply_moves` on such a plan. -/
theorem ignored_files_excluded (fs : FS) (n : Str) (h : should_ignore n = true) :
    n ∉ files_to_process fs ∧
    (∀ loads fail rawText pr isf,
      handle_new_file loads fail fs ⟨n, pr, isf⟩ rawText = (fs, LiveOutcome.skipped)) ∧
    (∀ loads rawText m, batch_classify loads (files_to_process fs) rawText = .ok m →
      ∀ p ∈ m, n ∉ p.2) ∧
    (∀ loads rawText m fail fs', batch_classify loads (files_to_process fs) rawText = .ok m →
      ∀ r ∈ (apply_moves fail m fs' []).2, r.fname ≠ n) := by
  have hnot : n ∉ files_to_process fs := by
    intro hmem
    unfold files_to_process at hmem
    have := List.of_mem_filter hmem
    rw [h] at this
    simp at this
  refine ⟨hnot, ?_, ?_, ?_⟩
  · intro loads fail rawText pr isf
    exact handle_new_file_ignored loads fail fs ⟨n, pr, isf⟩ rawText h
  · intro loads rawText m hm p hp hx
    exact hnot ((batch_classify_good loads (files_to_process fs) rawText m hm p hp).2 n hx)
  · intro loads rawText m fail fs' hm r hr he
    have hmap : (r.folder, r.fname) ∈
        ((apply_moves fail m fs' []).2).map (fun r => (r.folder, r.fname)) :=
      List.mem_map_of_mem _ hr
    rw [apply_moves_reports] at hmap
    simp only [List.map_nil, List.nil_append] at hmap
    obtain ⟨p, hp, _, hsnd⟩ := planPairs_mem m (r.folder, r.fname) hmap
    have : r.fname ∈ p.2 := hsnd
    rw [he] at this
    exact hnot ((batch_classify_good loads (files_to_process fs) rawText m hm p hp).2 n this)

/-- Witness for C6: the hidden dotfile of a concrete root is not a batch
candidate. -/
theorem ignored_files_excluded_witness :
    String.toList ".DS_Store" ∉
      files_to_process ⟨[], [String.toList ".DS_Store", String.toList "a.txt"], [], []⟩ :=
  (ignored_files_excluded ⟨[], [String.toList ".DS_Store", String.toList "a.txt"], [], []⟩
    (String.toList ".DS_Store") (by decide)).1

/-- C7: applying a plan attempts every (folder, file) pair of the plan, in
order, no matter which individual moves fail — a per-file failure is
recorded in that file's report and does not abort or skip any other
file's attempt. -/
theorem per_file_move_isolation (fail : Str → Str → Bool) (plan : FolderMap) (fs : FS) :
    ((apply_moves fail plan fs []).2).map (fun r => (r.folder, r.fname)) = planPairs plan := by
  have h := apply_moves_reports fail plan fs []
  simpa using h

/-- C8: with no eligible file directly in the watched root, the batch phase
returns an empty plan, performs no move and leaves the filesystem
untouched, uniformly in the provider behaviour (so no provider call can
influence the result). -/
theorem empty_scan_no_action (fs : FS) (h : files_to_process fs = []) :
    ∀ loads fail rawText, batchPhase loads fail fs rawText = .ok ([], fs, []) := by
  intro loads fail rawText
  unfold batchPhase
  rw [if_pos h]

/-- Witness for C8: a root holding only a hidden file and an ignored file
yields the empty batch outcome. -/
theorem empty_scan_no_action_witness :
    batchPhase (fun _ => some (Json.obj [])) (fun _ _ => false)
      ⟨[], [String.toList ".hidden", String.toList "Thumbs.db"], [], []⟩ []
      = .ok ([], ⟨[], [String.toList ".hidden", String.toList "Thumbs.db"], [], []⟩, []) :=
  empty_scan_no_action ⟨[], [String.toList ".hidden", String.toList "Thumbs.db"], [], []⟩
    (by decide) (fun _ => some (Json.obj [])) (fun _ _ => false) []

/-- C9 counterexample: the code removes every occurrence of the fence
markers, not only surrounding ones, so the valid JSON text
`{"a": "` ``` `"}` (braces escaped here) wrapped in a code fence is
altered — the fence marker inside the string literal is deleted — and no
longer yields the text of the unwrapped JSON; structural parsing sees a
different document. -/
theorem fence_stripping_counterexample :
    stripFences (fenceJsonStr ++ '\n' ::
        (String.toList "\x7b\"a\": \"```\"\x7d" ++ '\n' :: fenceStr))
      ≠ stripFences (String.toList "\x7b\"a\": \"```\"\x7d") ∧
    stripFences (fenceJsonStr ++ '\n' ::
        (String.toList "\x7b\"a\": \"```\"\x7d" ++ '\n' :: fenceStr))
      = String.toList "\x7b\"a\": \"\"\x7d" := by
  constructor
  · decide
  · decide

/-- C9 (amended): for a provider response whose JSON text contains no
backtick character, wrapping it in a code fence (with or without the
`json` language tag) feeds structural parsing exactly the text of the
unwrapped response, in the shared preprocessing of the batch and live
paths — so any parser sees the same input. -/
theorem fenced_response_parses_like_unwrapped (s : Str) (hs : '`' ∉ s) :
    stripFences (fenceJsonStr ++ '\n' :: (s ++ '\n' :: fenceStr)) = stripFences s ∧
    stripFences (fenceStr ++ '\n' :: (s ++ '\n' :: fenceStr)) = stripFences s ∧
    ∀ loads : Str → Option Json,
      loads (stripFences (fenceJsonStr ++ '\n' :: (s ++ '\n' :: fenceStr)))
        = loads (stripFences s) := by
  have h0 := stripFences_no_bt s hs
  have h1 := stripFences_json_wrap s hs
  have h2 := stripFences_plain_wrap s hs
  refine ⟨by rw [h1, h0], by rw [h2, h0], ?_⟩
  intro loads
  rw [h1, h0]

/-- Witness for the amended C9: a concrete backtick-free JSON response
preprocesses identically with and without its code fence. -/
theorem fenced_response_parses_like_unwrapped_witness :
    ('`' : Char) ∉ String.toList "\x7b\"folder\": \"Music\"\x7d" ∧
    stripFences (fenceJsonStr ++ '\n' ::
        (String.toList "\x7b\"folder\": \"Music\"\x7d" ++ '\n' :: fenceStr))
      = stripFences (String.toList "\x7b\"folder\": \"Music\"\x7d") :=
  ⟨by decide,
   (fenced_response_parses_like_unwrapped (String.toList "\x7b\"folder\": \"Music\"\x7d")
     (by decide)).1⟩

/-- C10: every key of a materialized plan carries a non-empty member list
drawn from the candidate set — a provider group matching no candidate
contributes no key — and applying the plan creates directories only for
the plan's keys, hence never for an empty group. -/
theorem plan_groups_nonempty_no_empty_dirs (loads : Str → Option Json) (files : List Str)
    (rawText : Str) (m : FolderMap) (h : batch_classify loads files rawText = .ok m) :
    (∀ p ∈ m, p.2 ≠ [] ∧ ∀ x ∈ p.2, x ∈ files) ∧
    (∀ fail fs x, x ∈ ((apply_moves fail m fs []).1).folders →
      x ∈ fs.folders ∨ x ∈ keysOf m) :=
  ⟨batch_classify_good loads files rawText m h,
   fun fail fs x hx => apply_moves_folders fail m fs [] x hx⟩

/-- Witness for C10: on a run whose provider answer also names a group
matching no candidate, that group contributes no key — the computed plan
has the single key `Docs` — and the surviving entry's member list is
non-empty. -/
theorem plan_groups_nonempty_no_empty_dirs_witness :
    [String.toList "a.txt"] ≠ ([] : List Str) ∧
    String.toList "a.txt" ∈ [String.toList "a.txt"] :=
  have h := (plan_groups_nonempty_no_empty_dirs
    (fun _ => some (Json.obj
      [(String.toList "Docs", Json.arr [Json.str (String.toList "a.txt")]),
       (String.toList "Empty", Json.arr [Json.str (String.toList "ghost.txt")])]))
    [String.toList "a.txt"] [] [(String.toList "Docs", [String.toList "a.txt"])] rfl).1
    (String.toList "Docs", [String.toList "a.txt"]) (List.mem_cons_self _ _)
  ⟨h.1, h.2 (String.toList "a.txt") (List.mem_cons_self _ _)⟩
